import Mathlib

/-!
Verification of the mixbag security signing subsystem
(`src/projects/security/src/mixbag/security/signing.py` and
`src/projects/security/src/mixbag/security/secrets.py`).

Python strings are modelled as lists of Unicode code points (`List Nat`),
byte strings as lists of naturals below 256, and raised exceptions as
`Except PyErr`.  All definitions are translated from the source; the
hash algorithm (`hashlib.sha1` by default, external to the repository)
is kept abstract as a function from bytes to bytes plus a block size,
exactly the data Python HMAC consumes.
-/

/-- Exceptions that the modelled code can raise.  `badToken` corresponds to
the `BadToken` class of `signing.py` (carrying its message); the others are
raw library errors (`binascii.Error`, `UnicodeDecodeError`,
`UnicodeEncodeError`, `OverflowError`, `ValueError`). -/
inductive PyErr where
  | badToken (msg : String)
  | binasciiError (oneMoreThanMultipleOf4 : Bool)
  | unicodeDecodeError
  | unicodeEncodeError
  | overflowError
  | valueError
deriving DecidableEq

/-- Byte order accepted by `int.to_bytes` / `int.from_bytes`. -/
inductive ByteOrder where
  | big
  | little
deriving DecidableEq

/-- A hashlib-style digest constructor: all Python HMAC uses of it are the
digest function on bytes and the block size attribute. -/
structure HashAlg where
  digest : List Nat → List Nat
  block_size : Nat

/-- The `max_age` argument of `is_valid_timestamp`: either a
`datetime.timedelta` (represented by its `total_seconds()` value) or a
plain number of seconds. -/
inductive MaxAge where
  | delta (totalSeconds : ℚ)
  | num (seconds : ℚ)

/-- The number an `isinstance(max_age, timedelta)` conversion followed by the
comparison effectively uses: `max_age.total_seconds()` for a timedelta, the
number itself otherwise. -/
def MaxAge.toSeconds : MaxAge → ℚ
  | .delta s => s
  | .num s => s

/-- Code points of a Lean string literal, used for string constants. -/
def strToCp (s : String) : List Nat := s.data.map (fun c => c.toNat)

/-! ## Base64 codec (`base64.urlsafe_b64encode` / `urlsafe_b64decode`) -/

/-- The urlsafe base64 alphabet: value (0..63) to ASCII code. -/
def b64Char (n : Nat) : Nat :=
  if n < 26 then 65 + n
  else if n < 52 then 97 + (n - 26)
  else if n < 62 then 48 + (n - 52)
  else if n = 62 then 45
  else 95

/-- Raw urlsafe base64 encoding with padding, three input bytes to four
output characters. -/
def b64EncodeRaw : List Nat → List Nat
  | [] => []
  | [a] => [b64Char (a / 4), b64Char (a % 4 * 16), 61, 61]
  | [a, b] => [b64Char (a / 4), b64Char (a % 4 * 16 + b / 16), b64Char (b % 16 * 4), 61]
  | a :: b :: c :: rest =>
    b64Char (a / 4) :: b64Char (a % 4 * 16 + b / 16) ::
      b64Char (b % 16 * 4 + c / 64) :: b64Char (c % 64) :: b64EncodeRaw rest

/-- Python `bytes.strip(c)`: remove leading and trailing occurrences of a
byte. -/
def stripChar (c : Nat) (l : List Nat) : List Nat :=
  ((l.dropWhile (fun x => x == c)).reverse.dropWhile (fun x => x == c)).reverse

/-- `b64_encode` of `signing.py`: urlsafe base64, `=` padding stripped. -/
def b64_encode (value : List Nat) : List Nat :=
  stripChar 61 (b64EncodeRaw value)

/-- The CPython `binascii` decode table after the urlsafe translation
(`-` to `+`, `_` to `/`) has been applied: character to 6-bit value. -/
def b64Val (c : Nat) : Option Nat :=
  if 65 ≤ c ∧ c ≤ 90 then some (c - 65)
  else if 97 ≤ c ∧ c ≤ 122 then some (c - 97 + 26)
  else if 48 ≤ c ∧ c ≤ 57 then some (c - 48 + 52)
  else if c = 43 ∨ c = 45 then some 62
  else if c = 47 ∨ c = 95 then some 63
  else none

/-- The lenient CPython `binascii.a2b_base64` loop (strict_mode false):
characters outside the alphabet are discarded, padding ends the quad once
two data characters are present, and a leftover quad position at the end of
input is an error.  State: remaining input, quad position, pending bits,
consecutive pad count, reversed output. -/
def a2bLoop : List Nat → Nat → Nat → Nat → List Nat → Except PyErr (List Nat)
  | [], quadPos, _, _, out =>
    if quadPos = 0 then .ok out.reverse
    else if quadPos = 1 then .error (.binasciiError true)
    else .error (.binasciiError false)
  | ch :: rest, quadPos, leftchar, pads, out =>
    if ch = 61 then
      if 2 ≤ quadPos then
        if 4 ≤ quadPos + (pads + 1) then .ok out.reverse
        else a2bLoop rest quadPos leftchar (pads + 1) out
      else a2bLoop rest quadPos leftchar pads out
    else
      match b64Val ch with
      | none => a2bLoop rest quadPos leftchar pads out
      | some v =>
        match quadPos with
        | 0 => a2bLoop rest 1 v 0 out
        | 1 => a2bLoop rest 2 (v % 16) 0 ((leftchar * 4 + v / 16) :: out)
        | 2 => a2bLoop rest 3 (v % 4) 0 ((leftchar * 16 + v / 4) :: out)
        | _ => a2bLoop rest 0 0 0 ((leftchar * 64 + v) :: out)

/-- `b64_decode` of `signing.py`: re-pad to a multiple of four characters
with `=` and run the urlsafe base64 decoder. -/
def b64_decode (value : List Nat) : Except PyErr (List Nat) :=
  a2bLoop (value ++ List.replicate ((4 - value.length % 4) % 4) 61) 0 0 0 []

/-! ## UTF-8 codec (`str.encode` / `bytes.decode`) -/

/-- UTF-8 encoding of a single code point; Python raises
`UnicodeEncodeError` on surrogates (and no larger code point fits in a
Python `str`). -/
def utf8EncodeChar (c : Nat) : Except PyErr (List Nat) :=
  if c < 128 then .ok [c]
  else if c < 2048 then .ok [192 + c / 64, 128 + c % 64]
  else if c < 65536 then
    if 55296 ≤ c ∧ c < 57344 then .error .unicodeEncodeError
    else .ok [224 + c / 4096, 128 + c / 64 % 64, 128 + c % 64]
  else if c < 1114112 then
    .ok [240 + c / 262144, 128 + c / 4096 % 64, 128 + c / 64 % 64, 128 + c % 64]
  else .error .unicodeEncodeError

/-- `str.encode()`: UTF-8 encoding of a whole string. -/
def utf8Encode : List Nat → Except PyErr (List Nat)
  | [] => .ok []
  | c :: cs => do
    let b ← utf8EncodeChar c
    let rest ← utf8Encode cs
    .ok (b ++ rest)

/-- Prepend a decoded code point to the result of decoding the remaining
bytes, propagating an error. -/
def utf8DecodeRest (cp : Nat) (r : Except PyErr (List Nat)) : Except PyErr (List Nat) :=
  match r with
  | .ok cs => .ok (cp :: cs)
  | .error e => .error e

/-- Strict UTF-8 decoding, rejecting truncated sequences, bad continuation
bytes, overlong forms, surrogates and values above U+10FFFF.  The fuel
argument only makes the recursion structural; one unit is spent per decoded
code point, so any fuel above the byte length is enough. -/
def utf8DecodeFuel : Nat → List Nat → Except PyErr (List Nat)
  | 0, _ => .error .unicodeDecodeError
  | _ + 1, [] => .ok []
  | fuel + 1, b :: bs =>
    if b < 128 then utf8DecodeRest b (utf8DecodeFuel fuel bs)
    else if b < 194 then .error .unicodeDecodeError
    else if b < 224 then
      match bs with
      | b2 :: bs2 =>
        if 128 ≤ b2 ∧ b2 < 192 then
          utf8DecodeRest ((b - 192) * 64 + (b2 - 128)) (utf8DecodeFuel fuel bs2)
        else .error .unicodeDecodeError
      | [] => .error .unicodeDecodeError
    else if b < 240 then
      match bs with
      | b2 :: b3 :: bs3 =>
        if (if b = 224 then 160 ≤ b2 ∧ b2 < 192
            else if b = 237 then 128 ≤ b2 ∧ b2 < 160
            else 128 ≤ b2 ∧ b2 < 192) ∧ (128 ≤ b3 ∧ b3 < 192) then
          utf8DecodeRest ((b - 224) * 4096 + (b2 - 128) * 64 + (b3 - 128))
            (utf8DecodeFuel fuel bs3)
        else .error .unicodeDecodeError
      | _ => .error .unicodeDecodeError
    else if b < 245 then
      match bs with
      | b2 :: b3 :: b4 :: bs4 =>
        if (if b = 240 then 144 ≤ b2 ∧ b2 < 192
            else if b = 244 then 128 ≤ b2 ∧ b2 < 144
            else 128 ≤ b2 ∧ b2 < 192) ∧ (128 ≤ b3 ∧ b3 < 192) ∧ (128 ≤ b4 ∧ b4 < 192) then
          utf8DecodeRest ((b - 240) * 262144 + (b2 - 128) * 4096 + (b3 - 128) * 64 + (b4 - 128))
            (utf8DecodeFuel fuel bs4)
        else .error .unicodeDecodeError
      | _ => .error .unicodeDecodeError
    else .error .unicodeDecodeError

/-- `bytes.decode()`: strict UTF-8 decoding of a whole byte string. -/
def utf8Decode (value : List Nat) : Except PyErr (List Nat) :=
  utf8DecodeFuel (value.length + 1) value

/-! ## Fixed-width integers (`int.to_bytes` / `int.from_bytes`) -/

/-- Little-endian byte expansion, `len` bytes. -/
def toBytesLE : Nat → Nat → List Nat
  | 0, _ => []
  | n + 1, v => v % 256 :: toBytesLE n (v / 256)

/-- The byte string `int.to_bytes(len, byteorder)` produces when the value
fits. -/
def toBytesOrd (bo : ByteOrder) (len v : Nat) : List Nat :=
  match bo with
  | .big => (toBytesLE len v).reverse
  | .little => toBytesLE len v

/-- `int.to_bytes(len, byteorder)`: raises `OverflowError` when the value
does not fit in `len` bytes. -/
def int_to_bytes (bo : ByteOrder) (len v : Nat) : Except PyErr (List Nat) :=
  if 256 ^ len ≤ v then .error .overflowError
  else .ok (toBytesOrd bo len v)

/-- Little-endian byte composition. -/
def fromBytesLE : List Nat → Nat
  | [] => 0
  | b :: bs => b + 256 * fromBytesLE bs

/-- `int.from_bytes(bytes, byteorder)`: total, no length requirement. -/
def int_from_bytes (bo : ByteOrder) (bs : List Nat) : Nat :=
  match bo with
  | .big => fromBytesLE bs.reverse
  | .little => fromBytesLE bs

/-! ## Decimal rendering of a timestamp (Python f-string of an int) -/

/-- Little-endian decimal digit code points; the fuel argument makes the
definition structurally recursive and is always given as at least the
value. -/
def decDigitsAux : Nat → Nat → List Nat
  | 0, _ => []
  | fuel + 1, n => if n = 0 then [] else (48 + n % 10) :: decDigitsAux fuel (n / 10)

/-- Code points of the decimal representation of a natural number, as an
f-string renders a nonnegative int. -/
def natDecimalCp (n : Nat) : List Nat :=
  if n = 0 then [48] else (decDigitsAux (n + 1) n).reverse

/-! ## Python string containment and `str.split` -/

/-- Python `sep in token`: substring containment. -/
def isSubList (sep : List Nat) : List Nat → Bool
  | [] => sep.isEmpty
  | c :: rest => sep.isPrefixOf (c :: rest) || isSubList sep rest

/-- Greedy left-to-right split on a separator, fuel-based so that the
kernel can evaluate it; fuel is always supplied as the length of the
string, which suffices because every step consumes at least one
character. -/
def splitFuel (sep : List Nat) : Nat → List Nat → List Nat → List (List Nat)
  | 0, s, acc => [acc.reverse ++ s]
  | _ + 1, [], acc => [acc.reverse]
  | fuel + 1, c :: rest, acc =>
    if sep ≠ [] ∧ sep.isPrefixOf (c :: rest) then
      acc.reverse :: splitFuel sep fuel (rest.drop (sep.length - 1)) []
    else splitFuel sep fuel rest (c :: acc)

/-- Python `token.split(sep)` for a nonempty separator. -/
def splitSep (sep s : List Nat) : List (List Nat) :=
  splitFuel sep s.length s []

/-! ## Separator validation (`_UNSAFE_SEP = re.compile(r"^[A-z0-9-_=]*$")`) -/

/-- Membership in the regex character set `[A-z0-9-_=]`.  The `A-z` range
covers ASCII 65 to 122, hence also the characters between `Z` and `a`. -/
def inReAlphabet (c : Nat) : Bool :=
  (65 ≤ c && c ≤ 122) || (48 ≤ c && c ≤ 57) || c == 45 || c == 95 || c == 61

/-- Whether `_UNSAFE_SEP.match(sep)` succeeds: the whole string consists of
characters of the set, or everything before a single trailing newline does
(`$` in a Python regex also matches just before a final newline). -/
def sepRegexMatch (sep : List Nat) : Bool :=
  sep.all inReAlphabet || (sep.getLast? == some 10 && sep.dropLast.all inReAlphabet)

/-- The base64url-with-padding alphabet `[A-Za-z0-9_=-]` used by the spec
when describing the intended separator restriction. -/
def inB64PadAlphabet (c : Nat) : Bool :=
  (65 ≤ c && c ≤ 90) || (97 ≤ c && c ≤ 122) || (48 ≤ c && c ≤ 57) ||
    c == 95 || c == 61 || c == 45

/-! ## secrets.py -/

/-- `compare_digest` of `secrets.py`: a timing-safe equality check; its
value is equality of the two strings. -/
def compare_digest (value1 value2 : List Nat) : Bool :=
  value1 == value2

/-- Python `hmac.new(key, msg, digestmod).digest()`: pad or hash the key
to the block size (the `hmac` module substitutes 64 for a block size below
16), then nested digest with the `0x36` / `0x5c` masks. -/
def hmacNew (alg : HashAlg) (key msg : List Nat) : List Nat :=
  let bs := if alg.block_size < 16 then 64 else alg.block_size
  let k0 := if bs < key.length then alg.digest key else key
  let kp := k0 ++ List.replicate (bs - k0.length) 0
  alg.digest ((kp.map (fun b => b ^^^ 92)) ++ alg.digest ((kp.map (fun b => b ^^^ 54)) ++ msg))

/-- `salted_hmac` of `secrets.py`, composed with `.digest()`: derive a key
as `algorithm(salt_bytes ++ key_bytes).digest()` and return the HMAC of the
UTF-8 encoded value under it. -/
def salted_hmac (salt value key : List Nat) (algorithm : HashAlg) : Except PyErr (List Nat) := do
  let saltB ← utf8Encode salt
  let keyB ← utf8Encode key
  let derived_key := algorithm.digest (saltB ++ keyB)
  let valueB ← utf8Encode value
  .ok (hmacNew algorithm derived_key valueB)

/-! ## The Signer -/

/-- The immutable state of a constructed `Signer`. -/
structure SignerCfg where
  key : List Nat
  sep : List Nat
  byte_order : ByteOrder
  salt : List Nat
  algorithm : HashAlg

/-- `Signer.default_salt`: module path dot class name. -/
def default_salt : List Nat := strToCp ("mixbag.security.signing.Signer")

/-- `Signer.__init__`: store the configuration, raising `ValueError` when
`_UNSAFE_SEP.match(sep)` succeeds; `byte_order or "big"` and
`salt or self.default_salt` supply the defaults (an empty salt string is
falsy and also yields the default). -/
def mkSigner (key sep : List Nat) (byte_order : Option ByteOrder)
    (salt : Option (List Nat)) (algorithm : HashAlg) : Except PyErr SignerCfg :=
  if sepRegexMatch sep then .error .valueError
  else .ok
    { key := key
      sep := sep
      byte_order := byte_order.getD .big
      salt := match salt with
              | none => default_salt
              | some s => if s = [] then default_salt else s
      algorithm := algorithm }

/-- `Signer.signature`: base64 of the salted HMAC of the string
`f"{value}.{timestamp}"`, decoded back to a `str` (the base64 output is
ASCII). -/
def Signer.signature (cfg : SignerCfg) (value : List Nat) (timestamp : Nat) :
    Except PyErr (List Nat) := do
  let unsigned_value := value ++ 46 :: natDecimalCp timestamp
  let mac ← salted_hmac cfg.salt unsigned_value cfg.key cfg.algorithm
  utf8Decode (b64_encode mac)

/-- `Signer.encode_int`: base64 of the eight-byte encoding. -/
def Signer.encode_int (cfg : SignerCfg) (value : Nat) : Except PyErr (List Nat) := do
  let bs ← int_to_bytes cfg.byte_order 8 value
  .ok (b64_encode bs)

/-- `Signer.decode_int`: `int.from_bytes` of the base64 decoding, with no
length requirement. -/
def Signer.decode_int (cfg : SignerCfg) (value : List Nat) : Except PyErr Nat := do
  let bs ← b64_decode value
  .ok (int_from_bytes cfg.byte_order bs)

/-- `Signer.encode_value`: base64 of the UTF-8 encoding. -/
def Signer.encode_value (value : List Nat) : Except PyErr (List Nat) := do
  let bs ← utf8Encode value
  .ok (b64_encode bs)

/-- `Signer.decode_value`: UTF-8 decoding of the base64 decoding. -/
def Signer.decode_value (value : List Nat) : Except PyErr (List Nat) := do
  let bs ← b64_decode value
  utf8Decode bs

/-- The effective timestamp of `Signer.sign`: Python evaluates
`timestamp or int(time.time())`, so a missing timestamp and an explicit 0
(falsy) are both replaced by the current time. -/
def effTimestamp (timestamp : Option Nat) (now : Nat) : Nat :=
  match timestamp with
  | none => now
  | some t0 => if t0 = 0 then now else t0

/-- `Signer.sign`: `timestamp or int(time.time())` resolves the effective
timestamp, then the three encoded parts are joined with the separator. -/
def Signer.sign (cfg : SignerCfg) (now : Nat) (value : List Nat)
    (timestamp : Option Nat) : Except PyErr (List Nat) := do
  let t := effTimestamp timestamp now
  let part1B ← Signer.encode_value value
  let part1 ← utf8Decode part1B
  let part2B ← Signer.encode_int cfg t
  let part2 ← utf8Decode part2B
  let part3 ← Signer.signature cfg value t
  .ok (part1 ++ cfg.sep ++ (part2 ++ cfg.sep ++ part3))

/-- `is_valid_timestamp`: no `max_age` means always valid; otherwise the
absolute difference between `int(time.time())` and the timestamp must be
strictly below the (possibly timedelta-derived) number of seconds. -/
def is_valid_timestamp (now : Int) (timestamp : Nat) (max_age : Option MaxAge) : Bool :=
  match max_age with
  | none => true
  | some ma => decide ((((now - (timestamp : Int)).natAbs : Nat) : ℚ) < ma.toSeconds)

/-- `Signer.validate`: structural checks, decode of the timestamp and value
segments (errors propagate raw), then the pluggable timestamp and signature
validators. -/
def Signer.validate (cfg : SignerCfg) (token : List Nat) (max_age : Option MaxAge)
    (timestamp_validator : Nat → Option MaxAge → Bool)
    (signature_validator : List Nat → List Nat → Bool) : Except PyErr (List Nat) :=
  if isSubList cfg.sep token = false then
    .error (.badToken ("Separator not found in token"))
  else
    match splitSep cfg.sep token with
    | [encoded_value, encoded_timestamp, sig] => do
      let tsB ← utf8Encode encoded_timestamp
      let timestamp ← Signer.decode_int cfg tsB
      let valB ← utf8Encode encoded_value
      let value ← Signer.decode_value valB
      if timestamp_validator timestamp max_age = false then
        .error (.badToken ("Token has expired"))
      else do
        let recomputed ← Signer.signature cfg value timestamp
        if signature_validator sig recomputed = false then
          .error (.badToken ("Signatures do not match"))
        else .ok value
    | _ => .error (.badToken ("Invalid token structure"))

/-! ## Concrete instances used by witnesses and counterexamples -/

/-- A small concrete digest algorithm for witnesses: the identity on byte
strings (every Python digest function is some map from bytes to bytes; the
claims quantify over the algorithm, so any concrete one may instantiate
them). -/
def modAlg : HashAlg :=
  { digest := fun l => l.map (fun b => b % 256), block_size := 16 }

/-- A concrete signer: key `"k"`, separator `"."`, big-endian, salt `"s"`,
digest `modAlg`; exactly what `mkSigner` returns on those arguments. -/
def cfgW : SignerCfg :=
  { key := [107], sep := [46], byte_order := .big, salt := [115], algorithm := modAlg }

/-- The signature segment the spec sentence predicts for a value, salt,
key and timestamp: base64 of the HMAC keyed with the digest of salt and
key bytes, over the plaintext value, a dot, and the decimal timestamp. -/
def predictedSig (alg : HashAlg) (saltB keyB valueB : List Nat) (t : Nat) : List Nat :=
  b64_encode (hmacNew alg (alg.digest (saltB ++ keyB)) (valueB ++ 46 :: natDecimalCp t))

/-- The timestamp segment of the token `cfgW.sign("a", 0)` produces when
the current time is 1 (it encodes 1, not 0). -/
def c2TsSeg : List Nat := [65, 65, 65, 65, 65, 65, 65, 65, 65, 65, 69]

/-- The signature segment of that token: it signs the message `"a.1"`. -/
def c2SigSeg : List Nat := [76, 122, 100, 99, 88, 70, 120, 99, 88, 70, 120, 99, 88, 70, 120, 99, 88, 70, 120, 99, 88, 69, 86, 100, 78, 106, 89, 50, 78, 106, 89, 50, 78, 106, 89, 50, 78, 106, 89, 50, 78, 106, 90, 104, 76, 106, 69]

/-- The whole token `cfgW.sign("a", 0)` produces when the current time
is 1. -/
def c2TokenAt0 : List Nat := [89, 81] ++ [46] ++ c2TsSeg ++ [46] ++ c2SigSeg

/-! ## Lemmas about the base64 codec -/

theorem b64Char_props (n : Nat) :
    (65 ≤ b64Char n ∧ b64Char n ≤ 90) ∨ (97 ≤ b64Char n ∧ b64Char n ≤ 122) ∨
      (48 ≤ b64Char n ∧ b64Char n ≤ 57) ∨ b64Char n = 45 ∨ b64Char n = 95 := by
  unfold b64Char
  repeat' split
  all_goals omega

theorem b64Char_ne_61 (n : Nat) : b64Char n ≠ 61 := by
  have := b64Char_props n
  omega

theorem b64Char_lt_128 (n : Nat) : b64Char n < 128 := by
  have := b64Char_props n
  omega

theorem b64Char_inRe (n : Nat) : inReAlphabet (b64Char n) = true := by
  have := b64Char_props n
  simp only [inReAlphabet, Bool.or_eq_true, Bool.and_eq_true, decide_eq_true_eq, beq_iff_eq]
  omega

theorem b64Val_b64Char : ∀ n, n < 64 → b64Val (b64Char n) = some n := by decide

theorem b64EncodeRaw_decomp (bs : List Nat) :
    ∃ core k, b64EncodeRaw bs = core ++ List.replicate k 61 ∧ k ≤ 2 ∧
      (core.length + k) % 4 = 0 ∧ ∀ c ∈ core, ∃ n, c = b64Char n := by
  induction bs using b64EncodeRaw.induct with
  | case1 =>
    exact ⟨[], 0, by simp [b64EncodeRaw], by omega, by simp, by simp⟩
  | case2 a =>
    refine ⟨[b64Char (a / 4), b64Char (a % 4 * 16)], 2, ?_, by omega, by simp, ?_⟩
    · simp [b64EncodeRaw, List.replicate]
    · intro c hc
      simp only [List.mem_cons, List.not_mem_nil, or_false] at hc
      rcases hc with rfl | rfl
      · exact ⟨_, rfl⟩
      · exact ⟨_, rfl⟩
  | case3 a b =>
    refine ⟨[b64Char (a / 4), b64Char (a % 4 * 16 + b / 16), b64Char (b % 16 * 4)], 1,
      ?_, by omega, by simp, ?_⟩
    · simp [b64EncodeRaw, List.replicate]
    · intro c hc
      simp only [List.mem_cons, List.not_mem_nil, or_false] at hc
      rcases hc with rfl | rfl | rfl
      · exact ⟨_, rfl⟩
      · exact ⟨_, rfl⟩
      · exact ⟨_, rfl⟩
  | case4 a b c rest ih =>
    obtain ⟨core, k, he, hk, hm, hmem⟩ := ih
    refine ⟨b64Char (a / 4) :: b64Char (a % 4 * 16 + b / 16) ::
      b64Char (b % 16 * 4 + c / 64) :: b64Char (c % 64) :: core, k, ?_, hk, ?_, ?_⟩
    · simp [b64EncodeRaw, he]
    · simp only [List.length_cons]
      omega
    · intro x hx
      simp only [List.mem_cons] at hx
      rcases hx with rfl | rfl | rfl | rfl | hx
      · exact ⟨_, rfl⟩
      · exact ⟨_, rfl⟩
      · exact ⟨_, rfl⟩
      · exact ⟨_, rfl⟩
      · exact hmem x hx

theorem dropWhile_replicate_append (k : Nat) (l : List Nat) :
    List.dropWhile (fun x => x == 61) (List.replicate k 61 ++ l) =
      List.dropWhile (fun x => x == 61) l := by
  induction k with
  | zero => simp
  | succ n ih => simp [List.replicate_succ, ih]

theorem dropWhile_of_ne (l : List Nat) (h : ∀ c ∈ l, c ≠ 61) :
    List.dropWhile (fun x => x == 61) l = l := by
  cases l with
  | nil => rfl
  | cons c t =>
    have : c ≠ 61 := h c (by simp)
    simp [List.dropWhile_cons, this]

theorem stripChar_decomp (core : List Nat) (k : Nat) (h : ∀ c ∈ core, c ≠ 61) :
    stripChar 61 (core ++ List.replicate k 61) = core := by
  unfold stripChar
  cases core with
  | nil =>
    have h1 : List.dropWhile (fun x => x == 61) (List.replicate k (61 : Nat)) = [] := by
      have h2 := dropWhile_replicate_append k ([] : List Nat)
      rw [List.append_nil, List.dropWhile_nil] at h2
      exact h2
    simp [h1]
  | cons c t =>
    have hc : c ≠ 61 := h c (by simp)
    have h1 : List.dropWhile (fun x => x == 61) ((c :: t) ++ List.replicate k 61) =
        (c :: t) ++ List.replicate k 61 := by
      simp [List.dropWhile_cons, hc]
    rw [h1]
    rw [List.reverse_append, List.reverse_replicate, dropWhile_replicate_append]
    rw [dropWhile_of_ne _ (by intro x hx; exact h x (List.mem_reverse.mp hx))]
    simp

theorem b64_encode_spec (bs : List Nat) :
    ∃ k, k ≤ 2 ∧ ((b64_encode bs).length + k) % 4 = 0 ∧
      b64EncodeRaw bs = b64_encode bs ++ List.replicate k 61 ∧
      ∀ c ∈ b64_encode bs, ∃ n, c = b64Char n := by
  obtain ⟨core, k, he, hk, hm, hmem⟩ := b64EncodeRaw_decomp bs
  have hne : ∀ c ∈ core, c ≠ 61 := by
    intro c hc
    obtain ⟨n, rfl⟩ := hmem c hc
    exact b64Char_ne_61 n
  have hcore : b64_encode bs = core := by
    rw [b64_encode, he, stripChar_decomp core k hne]
  rw [hcore]
  exact ⟨k, hk, hm, he, hmem⟩

theorem b64_encode_mem (bs : List Nat) :
    ∀ c ∈ b64_encode bs, inReAlphabet c = true ∧ c < 128 := by
  obtain ⟨k, _, _, _, hmem⟩ := b64_encode_spec bs
  intro c hc
  obtain ⟨n, rfl⟩ := hmem c hc
  exact ⟨b64Char_inRe n, b64Char_lt_128 n⟩

theorem a2bLoop_raw (bs : List Nat) (h : ∀ b ∈ bs, b < 256) :
    ∀ out, a2bLoop (b64EncodeRaw bs) 0 0 0 out = .ok (out.reverse ++ bs) := by
  induction bs using b64EncodeRaw.induct with
  | case1 =>
    intro out
    simp [b64EncodeRaw, a2bLoop]
  | case2 a =>
    intro out
    have ha : a < 256 := h a (by simp)
    have h1 : b64Char (a / 4) ≠ 61 := b64Char_ne_61 _
    have h2 : b64Char (a % 4 * 16) ≠ 61 := b64Char_ne_61 _
    have hv1 : b64Val (b64Char (a / 4)) = some (a / 4) := b64Val_b64Char _ (by omega)
    have hv2 : b64Val (b64Char (a % 4 * 16)) = some (a % 4 * 16) := b64Val_b64Char _ (by omega)
    simp only [b64EncodeRaw, a2bLoop, h1, h2, hv1, hv2, if_false, ite_false, ite_true,
      if_neg, reduceIte]
    have hpush : a / 4 * 4 + a % 4 * 16 / 16 = a := by omega
    rw [hpush]
    simp
  | case3 a b =>
    intro out
    have ha : a < 256 := h a (by simp)
    have hb : b < 256 := h b (by simp)
    have h1 : b64Char (a / 4) ≠ 61 := b64Char_ne_61 _
    have h2 : b64Char (a % 4 * 16 + b / 16) ≠ 61 := b64Char_ne_61 _
    have h3 : b64Char (b % 16 * 4) ≠ 61 := b64Char_ne_61 _
    have hv1 : b64Val (b64Char (a / 4)) = some (a / 4) := b64Val_b64Char _ (by omega)
    have hv2 : b64Val (b64Char (a % 4 * 16 + b / 16)) = some (a % 4 * 16 + b / 16) :=
      b64Val_b64Char _ (by omega)
    have hv3 : b64Val (b64Char (b % 16 * 4)) = some (b % 16 * 4) := b64Val_b64Char _ (by omega)
    simp only [b64EncodeRaw, a2bLoop, h1, h2, h3, hv1, hv2, hv3, if_false, ite_false,
      ite_true, if_neg, reduceIte]
    have hp1 : a / 4 * 4 + (a % 4 * 16 + b / 16) / 16 = a := by omega
    have hp2 : (a % 4 * 16 + b / 16) % 16 * 16 + b % 16 * 4 / 4 = b := by omega
    rw [hp1, hp2]
    simp
  | case4 a b c rest ih =>
    intro out
    have ha : a < 256 := h a (by simp)
    have hb : b < 256 := h b (by simp)
    have hc : c < 256 := h c (by simp)
    have hrest : ∀ x ∈ rest, x < 256 := by
      intro x hx
      exact h x (by simp [hx])
    have h1 : b64Char (a / 4) ≠ 61 := b64Char_ne_61 _
    have h2 : b64Char (a % 4 * 16 + b / 16) ≠ 61 := b64Char_ne_61 _
    have h3 : b64Char (b % 16 * 4 + c / 64) ≠ 61 := b64Char_ne_61 _
    have h4 : b64Char (c % 64) ≠ 61 := b64Char_ne_61 _
    have hv1 : b64Val (b64Char (a / 4)) = some (a / 4) := b64Val_b64Char _ (by omega)
    have hv2 : b64Val (b64Char (a % 4 * 16 + b / 16)) = some (a % 4 * 16 + b / 16) :=
      b64Val_b64Char _ (by omega)
    have hv3 : b64Val (b64Char (b % 16 * 4 + c / 64)) = some (b % 16 * 4 + c / 64) :=
      b64Val_b64Char _ (by omega)
    have hv4 : b64Val (b64Char (c % 64)) = some (c % 64) := b64Val_b64Char _ (by omega)
    simp only [b64EncodeRaw, a2bLoop, h1, h2, h3, h4, hv1, hv2, hv3, hv4, if_false,
      ite_false, ite_true, if_neg, reduceIte]
    have hp1 : a / 4 * 4 + (a % 4 * 16 + b / 16) / 16 = a := by omega
    have hp2 : (a % 4 * 16 + b / 16) % 16 * 16 + (b % 16 * 4 + c / 64) / 4 = b := by omega
    have hp3 : (b % 16 * 4 + c / 64) % 4 * 64 + c % 64 = c := by omega
    rw [hp1, hp2, hp3, ih hrest]
    simp

theorem b64_roundtrip (bs : List Nat) (h : ∀ b ∈ bs, b < 256) :
    b64_decode (b64_encode bs) = .ok bs := by
  obtain ⟨k, hk, hm, he, _⟩ := b64_encode_spec bs
  unfold b64_decode
  have hpad : (4 - (b64_encode bs).length % 4) % 4 = k := by omega
  rw [hpad, ← he, a2bLoop_raw bs h []]
  simp

/-! ## Lemmas about the UTF-8 codec -/

@[simp] theorem exceptBindOk {α β ε : Type} (a : α) (f : α → Except ε β) :
    (Except.ok a >>= f) = f a := rfl

@[simp] theorem exceptBindErr {α β ε : Type} (e : ε) (f : α → Except ε β) :
    ((Except.error e : Except ε α) >>= f) = Except.error e := rfl

@[simp] theorem exceptPureOk {α ε : Type} (a : α) :
    (pure a : Except ε α) = Except.ok a := rfl

@[simp] theorem exceptDotBindOk {α β ε : Type} (a : α) (f : α → Except ε β) :
    Except.bind (Except.ok a) f = f a := rfl

@[simp] theorem exceptDotBindErr {α β ε : Type} (e : ε) (f : α → Except ε β) :
    Except.bind (Except.error e : Except ε α) f = Except.error e := rfl

@[simp] theorem utf8DecodeRest_ok (cp : Nat) (cs : List Nat) :
    utf8DecodeRest cp (.ok cs) = .ok (cp :: cs) := rfl

@[simp] theorem utf8DecodeRest_error (cp : Nat) (e : PyErr) :
    utf8DecodeRest cp (.error e) = .error e := rfl

theorem utf8DecodeRest_err (cp : Nat) (r : Except PyErr (List Nat)) (e : PyErr)
    (h : utf8DecodeRest cp r = .error e) : r = .error e := by
  unfold utf8DecodeRest at h
  split at h
  · exact Except.noConfusion h
  · exact h

theorem utf8DecodeFuel_cons (f b : Nat) (bs : List Nat) :
    utf8DecodeFuel (f + 1) (b :: bs) =
      if b < 128 then utf8DecodeRest b (utf8DecodeFuel f bs)
      else if b < 194 then .error .unicodeDecodeError
      else if b < 224 then
        match bs with
        | b2 :: bs2 =>
          if 128 ≤ b2 ∧ b2 < 192 then
            utf8DecodeRest ((b - 192) * 64 + (b2 - 128)) (utf8DecodeFuel f bs2)
          else .error .unicodeDecodeError
        | [] => .error .unicodeDecodeError
      else if b < 240 then
        match bs with
        | b2 :: b3 :: bs3 =>
          if (if b = 224 then 160 ≤ b2 ∧ b2 < 192
              else if b = 237 then 128 ≤ b2 ∧ b2 < 160
              else 128 ≤ b2 ∧ b2 < 192) ∧ (128 ≤ b3 ∧ b3 < 192) then
            utf8DecodeRest ((b - 224) * 4096 + (b2 - 128) * 64 + (b3 - 128))
              (utf8DecodeFuel f bs3)
          else .error .unicodeDecodeError
        | _ => .error .unicodeDecodeError
      else if b < 245 then
        match bs with
        | b2 :: b3 :: b4 :: bs4 =>
          if (if b = 240 then 144 ≤ b2 ∧ b2 < 192
              else if b = 244 then 128 ≤ b2 ∧ b2 < 144
              else 128 ≤ b2 ∧ b2 < 192) ∧ (128 ≤ b3 ∧ b3 < 192) ∧ (128 ≤ b4 ∧ b4 < 192) then
            utf8DecodeRest ((b - 240) * 262144 + (b2 - 128) * 4096 + (b3 - 128) * 64 + (b4 - 128))
              (utf8DecodeFuel f bs4)
          else .error .unicodeDecodeError
        | _ => .error .unicodeDecodeError
      else .error .unicodeDecodeError := rfl

set_option maxRecDepth 4000 in
theorem utf8DecodeFuel_one (f b : Nat) (bs : List Nat) (h1 : b < 128) :
    utf8DecodeFuel (f + 1) (b :: bs) = utf8DecodeRest b (utf8DecodeFuel f bs) := by
  rw [utf8DecodeFuel_cons, if_pos h1]

set_option maxRecDepth 4000 in
theorem utf8DecodeFuel_two (f b b2 : Nat) (bs : List Nat) (h1 : 194 ≤ b) (h2 : b < 224)
    (h3 : 128 ≤ b2 ∧ b2 < 192) :
    utf8DecodeFuel (f + 1) (b :: b2 :: bs) =
      utf8DecodeRest ((b - 192) * 64 + (b2 - 128)) (utf8DecodeFuel f bs) := by
  rw [utf8DecodeFuel_cons, if_neg (by omega), if_neg (by omega), if_pos h2]
  show (if 128 ≤ b2 ∧ b2 < 192 then
      utf8DecodeRest ((b - 192) * 64 + (b2 - 128)) (utf8DecodeFuel f bs)
    else Except.error PyErr.unicodeDecodeError) = _
  rw [if_pos h3]

set_option maxRecDepth 4000 in
theorem utf8DecodeFuel_three (f b b2 b3 : Nat) (bs : List Nat) (h1 : 224 ≤ b) (h2 : b < 240)
    (hc : (if b = 224 then 160 ≤ b2 ∧ b2 < 192
           else if b = 237 then 128 ≤ b2 ∧ b2 < 160
           else 128 ≤ b2 ∧ b2 < 192) ∧ (128 ≤ b3 ∧ b3 < 192)) :
    utf8DecodeFuel (f + 1) (b :: b2 :: b3 :: bs) =
      utf8DecodeRest ((b - 224) * 4096 + (b2 - 128) * 64 + (b3 - 128)) (utf8DecodeFuel f bs) := by
  rw [utf8DecodeFuel_cons, if_neg (by omega), if_neg (by omega), if_neg (by omega),
    if_pos (by omega)]
  show (if (if b = 224 then 160 ≤ b2 ∧ b2 < 192
        else if b = 237 then 128 ≤ b2 ∧ b2 < 160
        else 128 ≤ b2 ∧ b2 < 192) ∧ (128 ≤ b3 ∧ b3 < 192) then
      utf8DecodeRest ((b - 224) * 4096 + (b2 - 128) * 64 + (b3 - 128)) (utf8DecodeFuel f bs)
    else Except.error PyErr.unicodeDecodeError) = _
  rw [if_pos hc]

set_option maxRecDepth 4000 in
theorem utf8DecodeFuel_four (f b b2 b3 b4 : Nat) (bs : List Nat) (h1 : 240 ≤ b) (h2 : b < 245)
    (hc : (if b = 240 then 144 ≤ b2 ∧ b2 < 192
           else if b = 244 then 128 ≤ b2 ∧ b2 < 144
           else 128 ≤ b2 ∧ b2 < 192) ∧ (128 ≤ b3 ∧ b3 < 192) ∧ (128 ≤ b4 ∧ b4 < 192)) :
    utf8DecodeFuel (f + 1) (b :: b2 :: b3 :: b4 :: bs) =
      utf8DecodeRest ((b - 240) * 262144 + (b2 - 128) * 4096 + (b3 - 128) * 64 + (b4 - 128))
        (utf8DecodeFuel f bs) := by
  rw [utf8DecodeFuel_cons, if_neg (by omega), if_neg (by omega), if_neg (by omega),
    if_neg (by omega), if_pos (by omega)]
  show (if (if b = 240 then 144 ≤ b2 ∧ b2 < 192
        else if b = 244 then 128 ≤ b2 ∧ b2 < 144
        else 128 ≤ b2 ∧ b2 < 192) ∧ (128 ≤ b3 ∧ b3 < 192) ∧ (128 ≤ b4 ∧ b4 < 192) then
      utf8DecodeRest ((b - 240) * 262144 + (b2 - 128) * 4096 + (b3 - 128) * 64 + (b4 - 128))
        (utf8DecodeFuel f bs)
    else Except.error PyErr.unicodeDecodeError) = _
  rw [if_pos hc]

theorem utf8Encode_append (xs ys : List Nat) :
    utf8Encode (xs ++ ys) = (do
      let a ← utf8Encode xs
      let b ← utf8Encode ys
      Except.ok (a ++ b)) := by
  induction xs with
  | nil =>
    cases hys : utf8Encode ys with
    | error e => simp [utf8Encode, hys]
    | ok l => simp [utf8Encode, hys]
  | cons c cs ih =>
    simp only [List.cons_append, utf8Encode, List.append_eq]
    rw [ih]
    cases utf8EncodeChar c with
    | error e => simp
    | ok b =>
      cases utf8Encode cs with
      | error e => simp
      | ok r1 =>
        cases utf8Encode ys with
        | error e => simp
        | ok r2 => simp

theorem utf8Encode_ascii (l : List Nat) (h : ∀ c ∈ l, c < 128) : utf8Encode l = .ok l := by
  induction l with
  | nil => rfl
  | cons c cs ih =>
    have hc : c < 128 := h c (by simp)
    have h1 : utf8EncodeChar c = .ok [c] := by
      rw [utf8EncodeChar, if_pos hc]
    have hcs : utf8Encode cs = .ok cs := ih (fun x hx => h x (by simp [hx]))
    rw [utf8Encode, h1, hcs]
    simp

set_option maxRecDepth 8000 in
theorem utf8EncodeChar_spec (c : Nat) (eb : List Nat) (h : utf8EncodeChar c = .ok eb) :
    (∀ b ∈ eb, b < 256) ∧ 1 ≤ eb.length ∧
      ∀ f rest, utf8DecodeFuel (f + 1) (eb ++ rest) = utf8DecodeRest c (utf8DecodeFuel f rest) := by
  rcases Nat.lt_or_ge c 128 with h1 | h1
  · rw [utf8EncodeChar, if_pos h1] at h
    obtain rfl : [c] = eb := by exact Except.ok.inj h
    refine ⟨by intro b hb; simp only [List.mem_singleton] at hb; omega, by simp, ?_⟩
    intro f rest
    exact utf8DecodeFuel_one f c rest h1
  · rcases Nat.lt_or_ge c 2048 with h2 | h2
    · rw [utf8EncodeChar, if_neg (by omega), if_pos h2] at h
      obtain rfl : [192 + c / 64, 128 + c % 64] = eb := by exact Except.ok.inj h
      refine ⟨?_, by simp, ?_⟩
      · intro b hb
        simp only [List.mem_cons, List.not_mem_nil, or_false] at hb
        rcases hb with rfl | rfl <;> omega
      · intro f rest
        rw [List.cons_append, List.cons_append, List.nil_append,
          utf8DecodeFuel_two f _ _ rest (by omega) (by omega) (by constructor <;> omega)]
        congr 1
        omega
    · rcases Nat.lt_or_ge c 65536 with h3 | h3
      · have hno : ¬(55296 ≤ c ∧ c < 57344) := by
          intro hcon
          rw [utf8EncodeChar, if_neg (by omega), if_neg (by omega), if_pos h3,
            if_pos hcon] at h
          exact Except.noConfusion h
        rw [utf8EncodeChar, if_neg (by omega), if_neg (by omega), if_pos h3,
          if_neg hno] at h
        obtain rfl : [224 + c / 4096, 128 + c / 64 % 64, 128 + c % 64] = eb := by
          exact Except.ok.inj h
        refine ⟨?_, by simp, ?_⟩
        · intro b hb
          simp only [List.mem_cons, List.not_mem_nil, or_false] at hb
          rcases hb with rfl | rfl | rfl <;> omega
        · intro f rest
          have hcond : (if 224 + c / 4096 = 224 then
                160 ≤ 128 + c / 64 % 64 ∧ 128 + c / 64 % 64 < 192
              else if 224 + c / 4096 = 237 then
                128 ≤ 128 + c / 64 % 64 ∧ 128 + c / 64 % 64 < 160
              else 128 ≤ 128 + c / 64 % 64 ∧ 128 + c / 64 % 64 < 192) ∧
              (128 ≤ 128 + c % 64 ∧ 128 + c % 64 < 192) := by
            constructor
            · rcases Nat.lt_or_ge c 4096 with h4 | h4
              · rw [if_pos (by omega)]
                constructor <;> omega
              · by_cases h5 : c / 4096 = 13
                · rw [if_neg (by omega), if_pos (by omega)]
                  have hs : c < 55296 := by
                    rcases Nat.lt_or_ge c 55296 with hx | hx
                    · exact hx
                    · exact absurd ⟨hx, by omega⟩ hno
                  constructor <;> omega
                · rw [if_neg (by omega), if_neg (by omega)]
                  constructor <;> omega
            · constructor <;> omega
          rw [List.cons_append, List.cons_append, List.cons_append, List.nil_append,
            utf8DecodeFuel_three f _ _ _ rest (by omega) (by omega) hcond]
          congr 1
          omega
      · rcases Nat.lt_or_ge c 1114112 with h4 | h4
        · rw [utf8EncodeChar, if_neg (by omega), if_neg (by omega), if_neg (by omega),
            if_pos h4] at h
          obtain rfl : [240 + c / 262144, 128 + c / 4096 % 64, 128 + c / 64 % 64,
              128 + c % 64] = eb := by exact Except.ok.inj h
          refine ⟨?_, by simp, ?_⟩
          · intro b hb
            simp only [List.mem_cons, List.not_mem_nil, or_false] at hb
            rcases hb with rfl | rfl | rfl | rfl <;> omega
          · intro f rest
            have hcond : (if 240 + c / 262144 = 240 then
                  144 ≤ 128 + c / 4096 % 64 ∧ 128 + c / 4096 % 64 < 192
                else if 240 + c / 262144 = 244 then
                  128 ≤ 128 + c / 4096 % 64 ∧ 128 + c / 4096 % 64 < 144
                else 128 ≤ 128 + c / 4096 % 64 ∧ 128 + c / 4096 % 64 < 192) ∧
                (128 ≤ 128 + c / 64 % 64 ∧ 128 + c / 64 % 64 < 192) ∧
                (128 ≤ 128 + c % 64 ∧ 128 + c % 64 < 192) := by
              refine ⟨?_, by constructor <;> omega, by constructor <;> omega⟩
              rcases Nat.lt_or_ge c 262144 with h5 | h5
              · rw [if_pos (by omega)]
                constructor <;> omega
              · rcases Nat.lt_or_ge c 1048576 with h6 | h6
                · rw [if_neg (by omega), if_neg (by omega)]
                  constructor <;> omega
                · rw [if_neg (by omega), if_pos (by omega)]
                  constructor <;> omega
            rw [List.cons_append, List.cons_append, List.cons_append, List.cons_append,
              List.nil_append,
              utf8DecodeFuel_four f _ _ _ _ rest (by omega) (by omega) hcond]
            congr 1
            omega
        · rw [utf8EncodeChar, if_neg (by omega), if_neg (by omega), if_neg (by omega),
            if_neg (by omega)] at h
          exact Except.noConfusion h

theorem utf8Encode_ok_parts (c : Nat) (cs : List Nat) (bs : List Nat)
    (h : utf8Encode (c :: cs) = .ok bs) :
    ∃ eb rest, utf8EncodeChar c = .ok eb ∧ utf8Encode cs = .ok rest ∧ bs = eb ++ rest := by
  rw [utf8Encode] at h
  cases hc : utf8EncodeChar c with
  | error e => rw [hc] at h; exact Except.noConfusion h
  | ok eb =>
    rw [hc] at h
    cases hcs : utf8Encode cs with
    | error e => rw [hcs] at h; exact Except.noConfusion h
    | ok rest =>
      rw [hcs] at h
      simp only [exceptBindOk] at h
      exact ⟨eb, rest, rfl, rfl, (Except.ok.inj h).symm⟩

theorem utf8Encode_lt (s bs : List Nat) (h : utf8Encode s = .ok bs) : ∀ b ∈ bs, b < 256 := by
  induction s generalizing bs with
  | nil =>
    obtain rfl : ([] : List Nat) = bs := by exact Except.ok.inj h
    simp
  | cons c cs ih =>
    obtain ⟨eb, rest, hc, hcs, rfl⟩ := utf8Encode_ok_parts c cs bs h
    intro b hb
    rcases List.mem_append.mp hb with hb | hb
    · exact (utf8EncodeChar_spec c eb hc).1 b hb
    · exact ih rest hcs b hb

theorem utf8Encode_len (s bs : List Nat) (h : utf8Encode s = .ok bs) : s.length ≤ bs.length := by
  induction s generalizing bs with
  | nil => simp
  | cons c cs ih =>
    obtain ⟨eb, rest, hc, hcs, rfl⟩ := utf8Encode_ok_parts c cs bs h
    have h1 : 1 ≤ eb.length := (utf8EncodeChar_spec c eb hc).2.1
    have h2 := ih rest hcs
    simp only [List.length_cons, List.length_append]
    omega

theorem utf8DecodeFuel_encode (s bs : List Nat) (h : utf8Encode s = .ok bs) :
    ∀ g, utf8DecodeFuel (s.length + g + 1) bs = .ok s := by
  induction s generalizing bs with
  | nil =>
    obtain rfl : ([] : List Nat) = bs := by exact Except.ok.inj h
    intro g
    rfl
  | cons c cs ih =>
    obtain ⟨eb, rest, hc, hcs, rfl⟩ := utf8Encode_ok_parts c cs bs h
    intro g
    have hstep := (utf8EncodeChar_spec c eb hc).2.2 (cs.length + g + 1) rest
    have : (c :: cs).length + g + 1 = (cs.length + g + 1) + 1 := by simp; omega
    rw [this, hstep, ih rest hcs g]
    simp

theorem utf8Decode_encode (s bs : List Nat) (h : utf8Encode s = .ok bs) :
    utf8Decode bs = .ok s := by
  have hlen := utf8Encode_len s bs h
  have := utf8DecodeFuel_encode s bs h (bs.length - s.length)
  rw [utf8Decode]
  have heq : bs.length + 1 = s.length + (bs.length - s.length) + 1 := by omega
  rw [heq, this]

theorem utf8Decode_ascii (l : List Nat) (h : ∀ c ∈ l, c < 128) : utf8Decode l = .ok l :=
  utf8Decode_encode l l (utf8Encode_ascii l h)

theorem utf8EncodeChar_err (c : Nat) (e : PyErr) (h : utf8EncodeChar c = .error e) :
    e = .unicodeEncodeError := by
  unfold utf8EncodeChar at h
  split at h
  · exact Except.noConfusion h
  · split at h
    · exact Except.noConfusion h
    · split at h
      · split at h
        · exact (Except.error.inj h).symm
        · exact Except.noConfusion h
      · split at h
        · exact Except.noConfusion h
        · exact (Except.error.inj h).symm

theorem utf8Encode_err (s : List Nat) (e : PyErr) (h : utf8Encode s = .error e) :
    e = .unicodeEncodeError := by
  induction s with
  | nil => exact Except.noConfusion h
  | cons c cs ih =>
    rw [utf8Encode] at h
    cases hc : utf8EncodeChar c with
    | error e2 =>
      rw [hc] at h
      simp only [exceptBindErr] at h
      obtain rfl : e2 = e := Except.error.inj h
      exact utf8EncodeChar_err c _ hc
    | ok eb =>
      rw [hc] at h
      cases hcs : utf8Encode cs with
      | error e2 =>
        rw [hcs] at h
        simp only [exceptBindOk, exceptBindErr] at h
        obtain rfl : e2 = e := Except.error.inj h
        exact ih hcs
      | ok rest =>
        rw [hcs] at h
        simp at h

theorem utf8DecodeFuel_err (f : Nat) : ∀ (l : List Nat) (e : PyErr),
    utf8DecodeFuel f l = .error e → e = .unicodeDecodeError := by
  induction f with
  | zero =>
    intro l e h
    exact (Except.error.inj h).symm
  | succ f ih =>
    intro l e h
    cases l with
    | nil => exact Except.noConfusion h
    | cons b bs =>
      rw [utf8DecodeFuel_cons] at h
      repeat' split at h
      all_goals
        first
          | exact Except.noConfusion h
          | exact (Except.error.inj h).symm
          | exact ih _ e (utf8DecodeRest_err _ _ _ h)

theorem utf8Decode_err (l : List Nat) (e : PyErr) (h : utf8Decode l = .error e) :
    e = .unicodeDecodeError :=
  utf8DecodeFuel_err (l.length + 1) l e h

/-! ## Lemmas about fixed-width integers and decimal digits -/

theorem toBytesLE_lt (n v : Nat) : ∀ b ∈ toBytesLE n v, b < 256 := by
  induction n generalizing v with
  | zero => simp [toBytesLE]
  | succ n ih =>
    intro b hb
    rw [toBytesLE] at hb
    rcases List.mem_cons.mp hb with rfl | hb
    · exact Nat.mod_lt _ (by omega)
    · exact ih (v / 256) b hb

theorem toBytesOrd_lt (bo : ByteOrder) (n v : Nat) : ∀ b ∈ toBytesOrd bo n v, b < 256 := by
  intro b hb
  cases bo with
  | big =>
    rw [toBytesOrd] at hb
    exact toBytesLE_lt n v b (List.mem_reverse.mp hb)
  | little => exact toBytesLE_lt n v b hb

theorem fromBytesLE_toBytesLE (n v : Nat) : fromBytesLE (toBytesLE n v) = v % 256 ^ n := by
  induction n generalizing v with
  | zero =>
    simp only [toBytesLE, fromBytesLE, Nat.pow_zero, Nat.mod_one]
  | succ n ih =>
    rw [toBytesLE, fromBytesLE, ih]
    have h256 : (256 : Nat) ^ (n + 1) = 256 * 256 ^ n := by ring
    rw [h256, Nat.mod_mul]

theorem int_from_to_bytes (bo : ByteOrder) (n v : Nat) (h : v < 256 ^ n) :
    int_from_bytes bo (toBytesOrd bo n v) = v := by
  cases bo with
  | big =>
    rw [toBytesOrd, int_from_bytes, List.reverse_reverse, fromBytesLE_toBytesLE,
      Nat.mod_eq_of_lt h]
  | little =>
    rw [toBytesOrd, int_from_bytes, fromBytesLE_toBytesLE, Nat.mod_eq_of_lt h]

theorem decDigitsAux_lt (fuel : Nat) : ∀ n, ∀ d ∈ decDigitsAux fuel n, d < 128 := by
  induction fuel with
  | zero => simp [decDigitsAux]
  | succ fuel ih =>
    intro n d hd
    rw [decDigitsAux] at hd
    split at hd
    · simp at hd
    · rcases List.mem_cons.mp hd with rfl | hd
      · have := Nat.mod_lt n (show 0 < 10 by omega)
        omega
      · exact ih (n / 10) d hd

theorem natDecimalCp_lt (n : Nat) : ∀ d ∈ natDecimalCp n, d < 128 := by
  intro d hd
  rw [natDecimalCp] at hd
  split at hd
  · simp only [List.mem_singleton] at hd
    omega
  · exact decDigitsAux_lt (n + 1) n d (List.mem_reverse.mp hd)

/-! ## Error classification for the base64 decoder -/

theorem a2bLoop_err (l : List Nat) : ∀ q lc p out e, a2bLoop l q lc p out = .error e →
    e = .binasciiError true ∨ e = .binasciiError false := by
  induction l with
  | nil =>
    intro q lc p out e h
    rw [a2bLoop] at h
    split at h
    · exact Except.noConfusion h
    · split at h
      · exact Or.inl (Except.error.inj h).symm
      · exact Or.inr (Except.error.inj h).symm
  | cons ch rest ih =>
    intro q lc p out e h
    rw [a2bLoop] at h
    split at h
    · split at h
      · split at h
        · exact Except.noConfusion h
        · exact ih _ _ _ _ _ h
      · exact ih _ _ _ _ _ h
    · split at h
      · exact ih _ _ _ _ _ h
      · split at h
        · exact ih _ _ _ _ _ h
        · exact ih _ _ _ _ _ h
        · exact ih _ _ _ _ _ h
        · exact ih _ _ _ _ _ h

theorem b64_decode_err (l : List Nat) (e : PyErr) (h : b64_decode l = .error e) :
    e = .binasciiError true ∨ e = .binasciiError false := by
  exact a2bLoop_err _ _ _ _ _ _ h

/-! ## Lemmas about separator occurrence and splitting

The token parts consist only of characters of the regex set (base64url
output), while an accepted separator contains at least one character
outside it; these lemmas show that splitting the signed token therefore
recovers exactly the three parts. -/

theorem sep_self_overlap (A : List Nat) (hA : A ≠ []) (hAP : ∀ a ∈ A, inReAlphabet a = true) :
    ∀ n (sep : List Nat), sep.length = n → ∀ k, k + A.length = sep.length →
      sep = A ++ sep.take k → ∀ c ∈ sep, inReAlphabet c = true := by
  intro n
  induction n using Nat.strong_induction_on with
  | _ n ih =>
    intro sep hlen k hk heq c hc
    have hAlen : 1 ≤ A.length := by
      cases A with
      | nil => exact absurd rfl hA
      | cons x xs => simp
    have hklen : k ≤ sep.length := by omega
    have hlen2 : (sep.take k).length = k := by
      rw [List.length_take]
      omega
    have hmemA : ∀ x ∈ sep, x ∈ A ∨ x ∈ sep.take k := by
      intro x hx
      rw [heq] at hx
      exact List.mem_append.mp hx
    have htake : sep.take k = A.take k ++ (sep.take k).take (k - A.length) := by
      conv_lhs => rw [heq]
      rw [List.take_append_eq_append_take]
    rcases Nat.lt_or_ge A.length k with hcase | hcase
    · -- leftover longer than A: recurse
      have htake2 : sep.take k = A ++ (sep.take k).take (k - A.length) := by
        conv_lhs => rw [htake]
        rw [List.take_of_length_le (show A.length ≤ k from by omega)]
      have hall2 := ih k (by omega) (sep.take k) hlen2 (k - A.length) (by omega) htake2
      rcases hmemA c hc with hcA | hcS
      · exact hAP c hcA
      · exact hall2 c hcS
    · -- leftover is a prefix of A
      have hz : k - A.length = 0 := by omega
      rw [hz, List.take_zero, List.append_nil] at htake
      rcases hmemA c hc with hcA | hcS
      · exact hAP c hcA
      · rw [htake] at hcS
        exact hAP c (List.take_subset _ _ hcS)

theorem overlap_all_inRe (sep A X : List Nat) (hA : A ≠ [])
    (hAP : ∀ a ∈ A, inReAlphabet a = true) (hpre : sep <+: A ++ (sep ++ X)) :
    ∀ c ∈ sep, inReAlphabet c = true := by
  have heq := List.prefix_iff_eq_take.mp hpre
  rcases Nat.lt_or_ge A.length sep.length with hk | hk
  · rw [List.take_append_eq_append_take, List.take_of_length_le (by omega),
      List.take_append_eq_append_take] at heq
    have hz : sep.length - A.length - sep.length = 0 := by omega
    rw [hz, List.take_zero, List.append_nil] at heq
    exact sep_self_overlap A hA hAP sep.length sep rfl (sep.length - A.length)
      (by omega) heq
  · rw [List.take_append_eq_append_take] at heq
    have hz : sep.length - A.length = 0 := by omega
    rw [hz, List.take_zero, List.append_nil] at heq
    intro c hc
    exact hAP c (List.take_subset _ _ (heq ▸ hc))

theorem splitFuel_zero (sep s : List Nat) (acc : List Nat) :
    splitFuel sep 0 s acc = [acc.reverse ++ s] := rfl

theorem splitFuel_nil (sep : List Nat) (f : Nat) (acc : List Nat) :
    splitFuel sep (f + 1) [] acc = [acc.reverse] := rfl

theorem splitFuel_cons (sep : List Nat) (f : Nat) (c : Nat) (rest acc : List Nat) :
    splitFuel sep (f + 1) (c :: rest) acc =
      if sep ≠ [] ∧ sep.isPrefixOf (c :: rest) then
        acc.reverse :: splitFuel sep f (rest.drop (sep.length - 1)) []
      else splitFuel sep f rest (c :: acc) := rfl

theorem splitFuel_run (sep : List Nat) (hbad : ∃ x ∈ sep, inReAlphabet x = false) :
    ∀ (A : List Nat), (∀ a ∈ A, inReAlphabet a = true) → ∀ (X : List Nat) (fuel : Nat),
      A.length + 1 ≤ fuel → ∀ (acc : List Nat),
      splitFuel sep fuel (A ++ (sep ++ X)) acc =
        (acc.reverse ++ A) :: splitFuel sep (fuel - A.length - 1) X [] := by
  have hsepne : sep ≠ [] := by
    obtain ⟨x, hx, _⟩ := hbad
    intro hnil
    rw [hnil] at hx
    exact List.not_mem_nil x hx
  intro A
  induction A with
  | nil =>
    intro _ X fuel hfuel acc
    obtain ⟨f, rfl⟩ : ∃ f, fuel = f + 1 := ⟨fuel - 1, by omega⟩
    cases sep with
    | nil => exact absurd rfl hsepne
    | cons s0 stail =>
      rw [List.nil_append, List.cons_append, splitFuel_cons,
        if_pos ⟨List.cons_ne_nil s0 stail,
          List.isPrefixOf_iff_prefix.mpr (List.prefix_append (s0 :: stail) X)⟩]
      have hlen : (s0 :: stail).length - 1 = stail.length := by simp
      rw [hlen, List.drop_left]
      simp
  | cons a A' ih =>
    intro hAP X fuel hfuel acc
    obtain ⟨f, rfl⟩ : ∃ f, fuel = f + 1 := ⟨fuel - 1, by omega⟩
    rw [List.cons_append, splitFuel_cons]
    have hnp : ¬(sep ≠ [] ∧ sep.isPrefixOf (a :: (A' ++ (sep ++ X)))) := by
      rintro ⟨-, hpre⟩
      have hall := overlap_all_inRe sep (a :: A') X (List.cons_ne_nil a A') hAP
        (List.isPrefixOf_iff_prefix.mp hpre)
      obtain ⟨x, hx, hxbad⟩ := hbad
      rw [hall x hx] at hxbad
      exact Bool.noConfusion hxbad
    rw [if_neg hnp]
    rw [ih (fun x hx => hAP x (List.mem_cons_of_mem a hx)) X f
      (by simp only [List.length_cons] at hfuel; omega) (a :: acc)]
    congr 1
    · simp
    · have hfx : f - A'.length - 1 = f + 1 - (a :: A').length - 1 := by
        simp only [List.length_cons]
        omega
      rw [hfx]

theorem splitFuel_last (sep : List Nat) (hbad : ∃ x ∈ sep, inReAlphabet x = false) :
    ∀ (C : List Nat), (∀ a ∈ C, inReAlphabet a = true) → ∀ (fuel : Nat) (acc : List Nat),
      splitFuel sep fuel C acc = [acc.reverse ++ C] := by
  intro C
  induction C with
  | nil =>
    intro _ fuel acc
    cases fuel with
    | zero => rfl
    | succ f => simp [splitFuel_nil]
  | cons c C' ih =>
    intro hCP fuel acc
    cases fuel with
    | zero => rfl
    | succ f =>
      have hnp : ¬(sep ≠ [] ∧ sep.isPrefixOf (c :: C')) := by
        rintro ⟨-, hpre⟩
        obtain ⟨x, hx, hxbad⟩ := hbad
        have hsub := (List.isPrefixOf_iff_prefix.mp hpre).subset
        rw [hCP x (hsub hx)] at hxbad
        exact Bool.noConfusion hxbad
      rw [splitFuel_cons, if_neg hnp,
        ih (fun x hx => hCP x (List.mem_cons_of_mem c hx)) f (c :: acc)]
      simp

theorem splitSep_parts (sep A B C : List Nat) (hbad : ∃ x ∈ sep, inReAlphabet x = false)
    (hA : ∀ a ∈ A, inReAlphabet a = true) (hB : ∀ a ∈ B, inReAlphabet a = true)
    (hC : ∀ a ∈ C, inReAlphabet a = true) :
    splitSep sep (A ++ (sep ++ (B ++ (sep ++ C)))) = [A, B, C] := by
  have hsepne : 1 ≤ sep.length := by
    obtain ⟨x, hx, _⟩ := hbad
    cases sep with
    | nil => exact absurd hx (List.not_mem_nil x)
    | cons s0 st => simp
  rw [splitSep]
  have hlen : (A ++ (sep ++ (B ++ (sep ++ C)))).length =
      A.length + sep.length + B.length + sep.length + C.length := by
    simp [List.length_append]
    omega
  rw [splitFuel_run sep hbad A hA _ _ (by omega) []]
  rw [splitFuel_run sep hbad B hB _ _ (by rw [hlen]; omega) []]
  rw [splitFuel_last sep hbad C hC _ []]
  simp

theorem isSubList_iff_occurs (sep l : List Nat) : isSubList sep l = true ↔ sep <:+: l := by
  induction l with
  | nil =>
    rw [isSubList]
    rw [List.isEmpty_iff]
    constructor
    · intro h
      rw [h]
    · intro h
      exact List.infix_nil.mp h
  | cons c rest ih =>
    rw [isSubList, Bool.or_eq_true, List.infix_cons_iff]
    constructor
    · rintro (h | h)
      · exact Or.inl (List.isPrefixOf_iff_prefix.mp h)
      · exact Or.inr (ih.mp h)
    · rintro (h | h)
      · exact Or.inl (List.isPrefixOf_iff_prefix.mpr h)
      · exact Or.inr (ih.mpr h)

theorem isSubList_token (sep A X : List Nat) :
    isSubList sep (A ++ (sep ++ X)) = true := by
  rw [isSubList_iff_occurs]
  exact ⟨A, X, by simp⟩

/-! ## Lemmas about construction and the separator regex -/

theorem mkSigner_ok (key sep : List Nat) (bo : Option ByteOrder) (salt : Option (List Nat))
    (alg : HashAlg) (cfg : SignerCfg)
    (h : mkSigner key sep bo salt alg = .ok cfg) :
    sepRegexMatch sep = false ∧ cfg.key = key ∧ cfg.sep = sep ∧
      cfg.byte_order = bo.getD .big ∧ cfg.algorithm = alg := by
  rw [mkSigner.eq_def] at h
  split at h
  · exact Except.noConfusion h
  · rename_i hm
    simp only [Bool.not_eq_true] at hm
    obtain rfl : _ = cfg := Except.ok.inj h
    exact ⟨hm, rfl, rfl, rfl, rfl⟩

theorem sepRegexMatch_false_bad (sep : List Nat) (h : sepRegexMatch sep = false) :
    ∃ x ∈ sep, inReAlphabet x = false := by
  rw [sepRegexMatch, Bool.or_eq_false_iff] at h
  have h1 := h.1
  rw [List.all_eq_false] at h1
  obtain ⟨x, hx, hxb⟩ := h1
  simp only [Bool.not_eq_true] at hxb
  exact ⟨x, hx, hxb⟩

theorem sepRegexMatch_none (sep : List Nat) (h : sepRegexMatch sep = false) : sep ≠ [] := by
  intro hnil
  rw [hnil] at h
  exact Bool.noConfusion h

/-! ## The signing pipeline on well-formed inputs -/

theorem b64_encode_ascii_decode (bs : List Nat) :
    utf8Decode (b64_encode bs) = .ok (b64_encode bs) :=
  utf8Decode_ascii _ (fun c hc => (b64_encode_mem bs c hc).2)

theorem b64_encode_ascii_encode (bs : List Nat) :
    utf8Encode (b64_encode bs) = .ok (b64_encode bs) :=
  utf8Encode_ascii _ (fun c hc => (b64_encode_mem bs c hc).2)

theorem signature_ok (cfg : SignerCfg) (v vb sb kb : List Nat) (t : Nat)
    (hv : utf8Encode v = .ok vb) (hs : utf8Encode cfg.salt = .ok sb)
    (hk : utf8Encode cfg.key = .ok kb) :
    Signer.signature cfg v t = .ok (predictedSig cfg.algorithm sb kb vb t) := by
  have hdigits : utf8Encode (46 :: natDecimalCp t) = .ok (46 :: natDecimalCp t) := by
    apply utf8Encode_ascii
    intro c hc
    rcases List.mem_cons.mp hc with rfl | hc
    · omega
    · exact natDecimalCp_lt t c hc
  have hunsigned : utf8Encode (v ++ 46 :: natDecimalCp t) = .ok (vb ++ 46 :: natDecimalCp t) := by
    rw [utf8Encode_append, hv, hdigits]
    simp
  rw [Signer.signature, salted_hmac, hs, hk, hunsigned]
  simp only [exceptBindOk]
  rw [predictedSig, b64_encode_ascii_decode]

theorem sign_ok (cfg : SignerCfg) (now : Nat) (v vb sb kb : List Nat) (timestamp : Option Nat)
    (hv : utf8Encode v = .ok vb) (hs : utf8Encode cfg.salt = .ok sb)
    (hk : utf8Encode cfg.key = .ok kb) (hte : effTimestamp timestamp now < 2 ^ 64) :
    Signer.sign cfg now v timestamp = .ok
      (b64_encode vb ++ cfg.sep ++
        (b64_encode (toBytesOrd cfg.byte_order 8 (effTimestamp timestamp now)) ++ cfg.sep ++
          predictedSig cfg.algorithm sb kb vb (effTimestamp timestamp now))) := by
  have henc : Signer.encode_value v = .ok (b64_encode vb) := by
    rw [Signer.encode_value, hv]
    simp
  have hint : Signer.encode_int cfg (effTimestamp timestamp now) =
      .ok (b64_encode (toBytesOrd cfg.byte_order 8 (effTimestamp timestamp now))) := by
    rw [Signer.encode_int, int_to_bytes, if_neg (by
      have : (256 : Nat) ^ 8 = 2 ^ 64 := by norm_num
      omega)]
    simp
  rw [Signer.sign, henc, hint,
    signature_ok cfg v vb sb kb (effTimestamp timestamp now) hv hs hk]
  simp only [exceptBindOk, b64_encode_ascii_decode]

/-! ## The claims -/

/-- C6: `is_valid_timestamp` returns true whenever `max_age` is `None`;
otherwise, with a timedelta converted to its total seconds, it returns true
exactly when the absolute difference between the current time and the
timestamp is strictly less than `max_age`, so a future-dated timestamp
inside the window also validates. -/
theorem c6_default_timestamp_validation (now : Int) (ts : Nat) :
    is_valid_timestamp now ts none = true ∧
    ∀ ma : MaxAge, (is_valid_timestamp now ts (some ma) = true ↔
      |(now : ℚ) - (ts : ℚ)| < ma.toSeconds) := by
  refine ⟨rfl, ?_⟩
  intro ma
  rw [is_valid_timestamp, decide_eq_true_iff]
  have habs : (((now - (ts : Int)).natAbs : Nat) : ℚ) = |(now : ℚ) - (ts : ℚ)| := by
    rw [Int.cast_natAbs]
    push_cast
    ring_nf
  rw [habs]

/-- C9: an explicitly supplied timestamp of 0 is falsy in the
`timestamp or int(time.time())` default, so `sign(v, 0)` behaves exactly
as `sign(v)` and embeds the current time rather than 0. -/
theorem c9_zero_timestamp_replaced (cfg : SignerCfg) (now : Nat) (v : List Nat) :
    Signer.sign cfg now v (some 0) = Signer.sign cfg now v none ∧
    effTimestamp (some 0) now = now :=
  ⟨rfl, rfl⟩

/-- C4: a nonempty separator drawn entirely from the
base64url-with-padding alphabet is rejected at construction with a
configuration error, the empty separator is always rejected, and the
default separator `"."` is accepted. -/
theorem c4_construction_rejection (key : List Nat) (bo : Option ByteOrder)
    (salt : Option (List Nat)) (alg : HashAlg) :
    (∀ sep, sep ≠ [] → (∀ c ∈ sep, inB64PadAlphabet c = true) →
      mkSigner key sep bo salt alg = .error .valueError) ∧
    mkSigner key [] bo salt alg = .error .valueError ∧
    ∃ cfg, mkSigner key [46] bo salt alg = .ok cfg := by
  refine ⟨?_, rfl, ⟨_, rfl⟩⟩
  intro sep hne hall
  have hmatch : sepRegexMatch sep = true := by
    rw [sepRegexMatch, Bool.or_eq_true]
    left
    rw [List.all_eq_true]
    intro c hc
    have hcb := hall c hc
    revert hcb
    rw [inB64PadAlphabet, inReAlphabet]
    simp only [Bool.or_eq_true, Bool.and_eq_true, decide_eq_true_eq, beq_iff_eq]
    omega
  rw [mkSigner.eq_def, if_pos hmatch]

/-- C4 witness: the concrete separator `"="` is nonempty, drawn from the
base64url-with-padding alphabet, and rejected. -/
theorem c4_construction_rejection_witness :
    mkSigner [107] [61] none none modAlg = .error .valueError :=
  (c4_construction_rejection [107] none none modAlg).1 [61] (by decide) (by decide)

/-- C10 counterexample: the separator `"a\n"` contains a character (the
newline) outside the regex set `[A-z0-9-_=]`, yet construction rejects it,
because `$` in a Python regex also matches just before a trailing
newline. -/
theorem c10_counterexample :
    mkSigner [107] [97, 10] none none modAlg = .error .valueError ∧
      inReAlphabet 10 = false :=
  ⟨rfl, rfl⟩

/-- C10 (amended): the regex set `[A-z0-9-_=]` also contains the
characters between `Z` and `a`, so a separator such as `"^"` is rejected;
a separator containing a character outside the set, such as `"a."`, is
accepted, except when the string matches the set after stripping a single
trailing newline (the `$`-before-newline rule). -/
theorem c10_separator_regex_quirks (key : List Nat) (bo : Option ByteOrder)
    (salt : Option (List Nat)) (alg : HashAlg) :
    mkSigner key [94] bo salt alg = .error .valueError ∧
    (∃ cfg, mkSigner key [97, 46] bo salt alg = .ok cfg) ∧
    ∀ sep, (∃ c ∈ sep, inReAlphabet c = false) →
      ¬(sep.getLast? = some 10 ∧ ∀ c ∈ sep.dropLast, inReAlphabet c = true) →
      ∃ cfg, mkSigner key sep bo salt alg = .ok cfg := by
  refine ⟨rfl, ⟨_, rfl⟩, ?_⟩
  rintro sep ⟨x, hx, hxbad⟩ hnl
  have hmatch : sepRegexMatch sep = false := by
    rw [sepRegexMatch, Bool.or_eq_false_iff]
    constructor
    · rw [List.all_eq_false]
      exact ⟨x, hx, by simp [hxbad]⟩
    · rw [Bool.and_eq_false_iff]
      by_cases hl : sep.getLast? = some 10
      · right
        by_cases hall : ∀ c ∈ sep.dropLast, inReAlphabet c = true
        · exact absurd ⟨hl, hall⟩ hnl
        · rw [List.all_eq_false]
          push_neg at hall
          obtain ⟨c, hc, hcb⟩ := hall
          exact ⟨c, hc, by simp [Bool.not_eq_true] at hcb ⊢; exact hcb⟩
      · left
        rw [beq_eq_false_iff_ne]
        exact hl
  rw [mkSigner.eq_def, if_neg (by simp [hmatch])]
  exact ⟨_, rfl⟩

/-- C10 witness: the concrete separator `"#"` has its only character
outside the regex set and no trailing newline, and is accepted. -/
theorem c10_separator_regex_quirks_witness :
    ∃ cfg, mkSigner [107] [35] none none modAlg = .ok cfg :=
  (c10_separator_regex_quirks [107] none none modAlg).2.2 [35] (by decide) (by decide)

/-- C8: a token in which the separator does not occur is rejected with
`BadToken("Separator not found in token")`; a token containing the
separator whose split does not have exactly three parts is rejected with
`BadToken("Invalid token structure")`. -/
theorem c8_structural_rejection (cfg : SignerCfg) (token : List Nat) (ma : Option MaxAge)
    (tsv : Nat → Option MaxAge → Bool) (sigv : List Nat → List Nat → Bool) :
    (¬(cfg.sep <:+: token) →
      Signer.validate cfg token ma tsv sigv =
        .error (.badToken ("Separator not found in token"))) ∧
    ((cfg.sep <:+: token) → (splitSep cfg.sep token).length ≠ 3 →
      Signer.validate cfg token ma tsv sigv =
        .error (.badToken ("Invalid token structure"))) := by
  constructor
  · intro hni
    have hsub : isSubList cfg.sep token = false := by
      rw [← Bool.not_eq_true, isSubList_iff_occurs]
      exact hni
    rw [Signer.validate.eq_def, if_pos hsub]
  · intro hinf hlen
    have hsub : isSubList cfg.sep token = true := (isSubList_iff_occurs _ _).mpr hinf
    rw [Signer.validate.eq_def, if_neg (by simp [hsub])]
    rcases hsplit : splitSep cfg.sep token with _ | ⟨a, _ | ⟨b, _ | ⟨c, _ | ⟨d, t⟩⟩⟩⟩
    · rfl
    · rfl
    · rfl
    · rw [hsplit] at hlen
      simp at hlen
    · rfl

/-- C8 witness: with the default separator `"."`, the token `"nosep"` is
rejected as separator-not-found and the token `"has.sep"` as invalid
structure. -/
theorem c8_structural_rejection_witness :
    Signer.validate cfgW [110, 111, 115, 101, 112] none (is_valid_timestamp 0) compare_digest =
      .error (.badToken ("Separator not found in token")) ∧
    Signer.validate cfgW [104, 97, 115, 46, 115, 101, 112] none (is_valid_timestamp 0)
        compare_digest = .error (.badToken ("Invalid token structure")) :=
  ⟨(c8_structural_rejection cfgW _ none _ _).1 (by decide),
   (c8_structural_rejection cfgW _ none _ _).2 (by decide) (by decide)⟩

/-- C7 counterexample: `decode_int` applied to the empty string returns 0
instead of failing, although the decoded byte string has length 0, not
8. -/
theorem c7_counterexample :
    Signer.decode_int cfgW [] = .ok 0 ∧ ([] : List Nat).length ≠ 8 :=
  ⟨rfl, by decide⟩

/-- C7 (amended): `decode_int` performs no length check at all: whenever
the base64 decode succeeds it returns `int.from_bytes` of the decoded
bytes, whatever their number; on the 8-byte strings produced by
`encode_int` it is its inverse for values below 2^64. -/
theorem c7_decode_int_no_length_check (cfg : SignerCfg) :
    (∀ s ds, b64_decode s = .ok ds →
      Signer.decode_int cfg s = .ok (int_from_bytes cfg.byte_order ds)) ∧
    (∀ v, v < 2 ^ 64 →
      (Signer.encode_int cfg v).bind (Signer.decode_int cfg) = .ok v) := by
  constructor
  · intro s ds h
    rw [Signer.decode_int, h]
    simp
  · intro v hv
    have h256 : (256 : Nat) ^ 8 = 2 ^ 64 := by norm_num
    have henc : Signer.encode_int cfg v = .ok (b64_encode (toBytesOrd cfg.byte_order 8 v)) := by
      rw [Signer.encode_int, int_to_bytes, if_neg (by omega)]
      simp
    rw [henc]
    simp only [Except.bind, Signer.decode_int,
      b64_roundtrip _ (toBytesOrd_lt cfg.byte_order 8 v)]
    simp only [exceptBindOk]
    rw [int_from_to_bytes cfg.byte_order 8 v (by omega)]

/-- C7 witness: a concrete 8-byte round trip through `encode_int` and
`decode_int` recovering 300. -/
theorem c7_decode_int_no_length_check_witness :
    (Signer.encode_int cfgW 300).bind (Signer.decode_int cfgW) = .ok 300 :=
  (c7_decode_int_no_length_check cfgW).2 300 (by norm_num)

/-- C5: once a token passes the structural checks and both segments
decode, a false timestamp validator makes `validate` fail with
`BadToken("Token has expired")`, and the result does not depend on the
signature validator at all, so expiry is reported before any signature
comparison. -/
theorem c5_expiry_before_signature (cfg : SignerCfg) (token : List Nat) (ma : Option MaxAge)
    (tsv : Nat → Option MaxAge → Bool) (sigv sigv2 : List Nat → List Nat → Bool)
    (a b c : List Nat) (ts : Nat) (v : List Nat)
    (hsub : isSubList cfg.sep token = true)
    (hsplit : splitSep cfg.sep token = [a, b, c])
    (hts : (utf8Encode b).bind (Signer.decode_int cfg) = .ok ts)
    (hval : (utf8Encode a).bind Signer.decode_value = .ok v)
    (htsv : tsv ts ma = false) :
    Signer.validate cfg token ma tsv sigv = .error (.badToken ("Token has expired")) ∧
    Signer.validate cfg token ma tsv sigv = Signer.validate cfg token ma tsv sigv2 := by
  have key : ∀ sv : List Nat → List Nat → Bool,
      Signer.validate cfg token ma tsv sv = .error (.badToken ("Token has expired")) := by
    intro sv
    rw [Signer.validate.eq_def, if_neg (by simp [hsub]), hsplit]
    cases hb : utf8Encode b with
    | error e => rw [hb] at hts; simp at hts
    | ok tsB =>
      rw [hb] at hts
      simp only [exceptDotBindOk] at hts
      cases ha : utf8Encode a with
      | error e => rw [ha] at hval; simp at hval
      | ok vB =>
        rw [ha] at hval
        simp only [exceptDotBindOk] at hval
        show (do
          let tsB ← utf8Encode b
          let timestamp ← Signer.decode_int cfg tsB
          let valB ← utf8Encode a
          let value ← Signer.decode_value valB
          if tsv timestamp ma = false then Except.error (PyErr.badToken ("Token has expired"))
          else do
            let recomputed ← Signer.signature cfg value timestamp
            if sv c recomputed = false then
              Except.error (PyErr.badToken ("Signatures do not match"))
            else Except.ok value) = _
        rw [hb]
        simp only [exceptBindOk]
        rw [hts]
        simp only [exceptBindOk]
        rw [ha]
        simp only [exceptBindOk]
        rw [hval]
        simp only [exceptBindOk]
        rw [htsv]
        simp
  exact ⟨key sigv, (key sigv).trans (key sigv2).symm⟩

/-- C5 witness: a concrete three-part token whose segments decode (value
`"\x00"`, timestamp 0) together with an always-false timestamp validator
reports expiry, for any signature validator. -/
theorem c5_expiry_before_signature_witness :
    Signer.validate cfgW [65, 65, 46, 65, 65, 65, 65, 65, 65, 65, 65, 65, 65, 65, 46, 65, 65]
      none (fun _ _ => false) compare_digest = .error (.badToken ("Token has expired")) ∧
    Signer.validate cfgW [65, 65, 46, 65, 65, 65, 65, 65, 65, 65, 65, 65, 65, 65, 46, 65, 65]
      none (fun _ _ => false) compare_digest =
    Signer.validate cfgW [65, 65, 46, 65, 65, 65, 65, 65, 65, 65, 65, 65, 65, 65, 46, 65, 65]
      none (fun _ _ => false) (fun _ _ => true) :=
  c5_expiry_before_signature cfgW
    [65, 65, 46, 65, 65, 65, 65, 65, 65, 65, 65, 65, 65, 65, 46, 65, 65] none
    (fun _ _ => false) compare_digest (fun _ _ => true)
    [65, 65] [65, 65, 65, 65, 65, 65, 65, 65, 65, 65, 65] [65, 65] 0 [0]
    (by decide) rfl rfl rfl rfl

theorem decode_int_not_badToken (cfg : SignerCfg) (b : List Nat) (e : PyErr)
    (h : (utf8Encode b).bind (Signer.decode_int cfg) = .error e) : ∀ m, e ≠ .badToken m := by
  intro m
  cases hb : utf8Encode b with
  | error e2 =>
    rw [hb] at h
    simp only [exceptDotBindErr] at h
    obtain rfl : e2 = e := Except.error.inj h
    rw [utf8Encode_err b _ hb]
    exact fun hcon => PyErr.noConfusion hcon
  | ok tsB =>
    rw [hb] at h
    simp only [exceptDotBindOk] at h
    rw [Signer.decode_int] at h
    cases hd : b64_decode tsB with
    | error e3 =>
      rw [hd] at h
      simp only [exceptBindErr] at h
      obtain rfl : e3 = e := Except.error.inj h
      rcases b64_decode_err tsB _ hd with rfl | rfl
      · exact fun hcon => PyErr.noConfusion hcon
      · exact fun hcon => PyErr.noConfusion hcon
    | ok bs =>
      rw [hd] at h
      simp at h

theorem decode_value_not_badToken (a : List Nat) (e : PyErr)
    (h : (utf8Encode a).bind Signer.decode_value = .error e) : ∀ m, e ≠ .badToken m := by
  intro m
  cases ha : utf8Encode a with
  | error e2 =>
    rw [ha] at h
    simp only [exceptDotBindErr] at h
    obtain rfl : e2 = e := Except.error.inj h
    rw [utf8Encode_err a _ ha]
    exact fun hcon => PyErr.noConfusion hcon
  | ok vB =>
    rw [ha] at h
    simp only [exceptDotBindOk] at h
    rw [Signer.decode_value] at h
    cases hd : b64_decode vB with
    | error e3 =>
      rw [hd] at h
      simp only [exceptBindErr] at h
      obtain rfl : e3 = e := Except.error.inj h
      rcases b64_decode_err vB _ hd with rfl | rfl
      · exact fun hcon => PyErr.noConfusion hcon
      · exact fun hcon => PyErr.noConfusion hcon
    | ok bs =>
      rw [hd] at h
      simp only [exceptBindOk] at h
      rw [utf8Decode_err bs _ h]
      exact fun hcon => PyErr.noConfusion hcon

/-- C3 counterexample: the token `"A.A.A"` has the separator and exactly
three parts, but decoding its timestamp segment raises a raw
`binascii.Error` (one data character cannot follow a multiple of four),
which `validate` propagates unchanged instead of wrapping in a
`BadToken`. -/
theorem c3_counterexample :
    Signer.validate cfgW [65, 46, 65, 46, 65] none (is_valid_timestamp 0) compare_digest =
      .error (.binasciiError true) := rfl

/-- C3 (amended): when a structurally valid token has a timestamp or value
segment whose decoding fails, `validate` propagates the raw decode error
(a `binascii.Error`, `UnicodeDecodeError` or `UnicodeEncodeError`), never a
`BadToken` and never a silent default, because the decode calls sit outside
the try/except around the split. -/
theorem c3_decode_error_propagates (cfg : SignerCfg) (token : List Nat) (ma : Option MaxAge)
    (tsv : Nat → Option MaxAge → Bool) (sigv : List Nat → List Nat → Bool)
    (a b c : List Nat) (e : PyErr)
    (hsub : isSubList cfg.sep token = true)
    (hsplit : splitSep cfg.sep token = [a, b, c]) :
    ((utf8Encode b).bind (Signer.decode_int cfg) = .error e →
      Signer.validate cfg token ma tsv sigv = .error e ∧ ∀ m, e ≠ .badToken m) ∧
    (∀ ts, (utf8Encode b).bind (Signer.decode_int cfg) = .ok ts →
      (utf8Encode a).bind Signer.decode_value = .error e →
      Signer.validate cfg token ma tsv sigv = .error e ∧ ∀ m, e ≠ .badToken m) := by
  constructor
  · intro hts
    refine ⟨?_, decode_int_not_badToken cfg b e hts⟩
    rw [Signer.validate.eq_def, if_neg (by simp [hsub]), hsplit]
    show (do
      let tsB ← utf8Encode b
      let timestamp ← Signer.decode_int cfg tsB
      let valB ← utf8Encode a
      let value ← Signer.decode_value valB
      if tsv timestamp ma = false then Except.error (PyErr.badToken ("Token has expired"))
      else do
        let recomputed ← Signer.signature cfg value timestamp
        if sigv c recomputed = false then
          Except.error (PyErr.badToken ("Signatures do not match"))
        else Except.ok value) = _
    cases hb : utf8Encode b with
    | error e2 =>
      rw [hb] at hts
      simp only [exceptDotBindErr] at hts
      obtain rfl : e2 = e := Except.error.inj hts
      simp
    | ok tsB =>
      rw [hb] at hts
      simp only [exceptDotBindOk] at hts
      simp only [exceptBindOk]
      rw [hts]
      simp
  · intro ts hts hval
    refine ⟨?_, decode_value_not_badToken a e hval⟩
    rw [Signer.validate.eq_def, if_neg (by simp [hsub]), hsplit]
    show (do
      let tsB ← utf8Encode b
      let timestamp ← Signer.decode_int cfg tsB
      let valB ← utf8Encode a
      let value ← Signer.decode_value valB
      if tsv timestamp ma = false then Except.error (PyErr.badToken ("Token has expired"))
      else do
        let recomputed ← Signer.signature cfg value timestamp
        if sigv c recomputed = false then
          Except.error (PyErr.badToken ("Signatures do not match"))
        else Except.ok value) = _
    cases hb : utf8Encode b with
    | error e2 =>
      rw [hb] at hts
      simp at hts
    | ok tsB =>
      rw [hb] at hts
      simp only [exceptDotBindOk] at hts
      simp only [exceptBindOk]
      rw [hts]
      simp only [exceptBindOk]
      cases ha : utf8Encode a with
      | error e2 =>
        rw [ha] at hval
        simp only [exceptDotBindErr] at hval
        obtain rfl : e2 = e := Except.error.inj hval
        simp
      | ok vB =>
        rw [ha] at hval
        simp only [exceptDotBindOk] at hval
        simp only [exceptBindOk]
        rw [hval]
        simp

/-- C3 witness: applying the propagation theorem to the concrete token
`"A.A.A"`, whose timestamp segment fails base64 decoding. -/
theorem c3_decode_error_propagates_witness :
    Signer.validate cfgW [65, 46, 65, 46, 65] none (is_valid_timestamp 0) compare_digest =
      .error (.binasciiError true) ∧ ∀ m, PyErr.binasciiError true ≠ .badToken m :=
  (c3_decode_error_propagates cfgW [65, 46, 65, 46, 65] none (is_valid_timestamp 0)
    compare_digest [65] [65] [65] (.binasciiError true) (by decide) rfl).1 rfl

/-- C2 counterexample: with timestamp 0 and current time 1, `sign("a", 0)`
produces a third segment signing `"a.1"`, not the
`HMAC(..., "a.0")`-derived segment the claim predicts for the supplied
timestamp 0, because the `or` default replaces 0 by the current time. -/
theorem c2_counterexample :
    Signer.sign cfgW 1 [97] (some 0) = .ok c2TokenAt0 ∧
    splitSep [46] c2TokenAt0 = [[89, 81], c2TsSeg, c2SigSeg] ∧
    c2SigSeg ≠ predictedSig modAlg [115] [107] [97] 0 :=
  ⟨rfl, rfl, by decide⟩

/-- C2 (amended): for every nonzero timestamp `t` below 2^64, the token
produced by `sign` is the base64 of the UTF-8 value, the separator, the
base64 of the eight-byte timestamp, the separator, and the padding-stripped
base64url encoding of `HMAC(key = A(UTF8(salt) ++ UTF8(key)).digest(),
message = UTF8(value) ++ "." ++ decimal(t), digest = A)` — the signed
message joins the plaintext value and timestamp with a literal dot, not
the encoded segments.  (A zero timestamp is replaced by the current time
per the `or` default, which forces the nonzero restriction.) -/
theorem c2_signature_construction (cfg : SignerCfg) (now : Nat) (v vb sb kb : List Nat)
    (t : Nat) (hv : utf8Encode v = .ok vb) (hs : utf8Encode cfg.salt = .ok sb)
    (hk : utf8Encode cfg.key = .ok kb) (ht0 : t ≠ 0) (ht : t < 2 ^ 64) :
    Signer.sign cfg now v (some t) = .ok
      (b64_encode vb ++ cfg.sep ++
        (b64_encode (toBytesOrd cfg.byte_order 8 t) ++ cfg.sep ++
          predictedSig cfg.algorithm sb kb vb t)) := by
  have heff : effTimestamp (some t) now = t := by
    rw [effTimestamp, if_neg ht0]
  rw [sign_ok cfg now v vb sb kb (some t) hv hs hk (by rw [heff]; exact ht), heff]

/-- C2 witness: the concrete signer `cfgW` at value `"a"`, timestamp 3. -/
theorem c2_signature_construction_witness :
    Signer.sign cfgW 5 [97] (some 3) = .ok
      (b64_encode [97] ++ cfgW.sep ++
        (b64_encode (toBytesOrd cfgW.byte_order 8 3) ++ cfgW.sep ++
          predictedSig cfgW.algorithm [115] [107] [97] 3)) :=
  c2_signature_construction cfgW 5 [97] [97] [115] [107] 3 rfl rfl rfl (by decide)
    (by norm_num)

theorem validate_happy (cfg : SignerCfg) (token : List Nat) (ma : Option MaxAge)
    (tsv : Nat → Option MaxAge → Bool) (sigv : List Nat → List Nat → Bool)
    (a b c : List Nat) (ts : Nat) (v recomputed : List Nat)
    (hsub : isSubList cfg.sep token = true)
    (hsplit : splitSep cfg.sep token = [a, b, c])
    (hts : (utf8Encode b).bind (Signer.decode_int cfg) = .ok ts)
    (hval : (utf8Encode a).bind Signer.decode_value = .ok v)
    (htsv : tsv ts ma = true)
    (hsig : Signer.signature cfg v ts = .ok recomputed)
    (hcmp : sigv c recomputed = true) :
    Signer.validate cfg token ma tsv sigv = .ok v := by
  rw [Signer.validate.eq_def, if_neg (by simp [hsub]), hsplit]
  show (do
    let tsB ← utf8Encode b
    let timestamp ← Signer.decode_int cfg tsB
    let valB ← utf8Encode a
    let value ← Signer.decode_value valB
    if tsv timestamp ma = false then Except.error (PyErr.badToken ("Token has expired"))
    else do
      let recomputed ← Signer.signature cfg value timestamp
      if sigv c recomputed = false then
        Except.error (PyErr.badToken ("Signatures do not match"))
      else Except.ok value) = _
  cases hb : utf8Encode b with
  | error e => rw [hb] at hts; simp at hts
  | ok tsB =>
    rw [hb] at hts
    simp only [exceptDotBindOk] at hts
    cases ha : utf8Encode a with
    | error e => rw [ha] at hval; simp at hval
    | ok vB =>
      rw [ha] at hval
      simp only [exceptDotBindOk] at hval
      simp only [exceptBindOk]
      rw [hts]
      simp only [exceptBindOk]
      rw [hval]
      simp only [exceptBindOk]
      rw [htsv]
      simp only [Bool.true_eq_false, if_false, ite_false, reduceIte]
      rw [hsig]
      simp only [exceptBindOk]
      rw [hcmp]
      simp

/-- C1: for every signer whose construction succeeds (with an encodable
key, salt and value), and every explicit timestamp below 2^64 (with the
current time also below 2^64, used when an explicit 0 is replaced by it),
validating the signed token with no maximum age and the default
validators returns exactly the original value. -/
theorem c1_roundtrip (key sep : List Nat) (bo : Option ByteOrder) (salt : Option (List Nat))
    (alg : HashAlg) (cfg : SignerCfg) (v vb kb sb : List Nat) (t now : Nat)
    (hcons : mkSigner key sep bo salt alg = .ok cfg)
    (hv : utf8Encode v = .ok vb)
    (hk : utf8Encode cfg.key = .ok kb)
    (hs : utf8Encode cfg.salt = .ok sb)
    (ht : t < 2 ^ 64) (hnow : now < 2 ^ 64) :
    (Signer.sign cfg now v (some t)).bind
      (fun tok => Signer.validate cfg tok none (is_valid_timestamp (now : Int)) compare_digest)
      = .ok v := by
  obtain ⟨hre, hkeyeq, hsepeq, hboeq, halgeq⟩ := mkSigner_ok key sep bo salt alg cfg hcons
  have hte : effTimestamp (some t) now < 2 ^ 64 := by
    rw [effTimestamp]
    split <;> omega
  rw [sign_ok cfg now v vb sb kb (some t) hv hs hk hte]
  simp only [exceptDotBindOk]
  simp only [List.append_assoc]
  have hbad : ∃ x ∈ cfg.sep, inReAlphabet x = false := by
    rw [hsepeq]
    exact sepRegexMatch_false_bad sep hre
  have hmac : ∀ x ∈ predictedSig cfg.algorithm sb kb vb (effTimestamp (some t) now),
      inReAlphabet x = true :=
    fun x hx => (b64_encode_mem _ x hx).1
  have hP1 : ∀ x ∈ b64_encode vb, inReAlphabet x = true :=
    fun x hx => (b64_encode_mem vb x hx).1
  have hP2 : ∀ x ∈ b64_encode (toBytesOrd cfg.byte_order 8 (effTimestamp (some t) now)),
      inReAlphabet x = true :=
    fun x hx => (b64_encode_mem _ x hx).1
  have h256 : (256 : Nat) ^ 8 = 2 ^ 64 := by norm_num
  refine validate_happy cfg _ none (is_valid_timestamp (now : Int)) compare_digest
    (b64_encode vb)
    (b64_encode (toBytesOrd cfg.byte_order 8 (effTimestamp (some t) now)))
    (predictedSig cfg.algorithm sb kb vb (effTimestamp (some t) now))
    (effTimestamp (some t) now) v
    (predictedSig cfg.algorithm sb kb vb (effTimestamp (some t) now))
    (isSubList_token _ _ _)
    (splitSep_parts cfg.sep _ _ _ hbad hP1 hP2 hmac)
    ?_ ?_ rfl
    (signature_ok cfg v vb sb kb (effTimestamp (some t) now) hv hs hk)
    (by rw [compare_digest]; simp)
  · rw [b64_encode_ascii_encode]
    simp only [exceptDotBindOk]
    rw [Signer.decode_int, b64_roundtrip _ (toBytesOrd_lt cfg.byte_order 8 _)]
    simp only [exceptBindOk]
    rw [int_from_to_bytes cfg.byte_order 8 _ (by omega)]
  · rw [b64_encode_ascii_encode]
    simp only [exceptDotBindOk]
    rw [Signer.decode_value, b64_roundtrip _ (utf8Encode_lt v vb hv)]
    simp only [exceptBindOk]
    exact utf8Decode_encode v vb hv

/-- C1 witness: the concrete signer `cfgW` round-trips the value `"a"`
at timestamp 3 with current time 5. -/
theorem c1_roundtrip_witness :
    (Signer.sign cfgW 5 [97] (some 3)).bind
      (fun tok => Signer.validate cfgW tok none (is_valid_timestamp (5 : Int)) compare_digest)
      = .ok [97] :=
  c1_roundtrip [107] [46] none (some [115]) modAlg cfgW [97] [97] [107] [115] 3 5
    rfl rfl rfl rfl (by norm_num) (by norm_num)
